import Mathlib

/-!
Verification of the parquet compaction/ingestion pipeline
(`scripts/compaction.py`, `scripts/ingestion.py`).

The repository's two entry points are thin drivers around a dataset
writer (`ds.write_dataset`).  The driver code (CLI checks, the row
transformer `process_table`, the loop over input files, the parameters
passed to the writer) is embedded directly from the source.  The writer
itself is not part of the repository's sources, so its stream/buffer
semantics (row-group flushing, file rolling, the delete-matching
finalizer) are modelled from the specification, §4.5 and §4.6.
-/

namespace ParquetPipeline

/-- A logical data row of the compacted dataset.  The dataset is written
hive-partitioned on the `year` and `month` columns
(`compaction.py`, `partitioning=['year', 'month']`); the remaining column
values are abstracted into an opaque payload. -/
structure Row where
  year : Int
  month : Int
  payload : Nat
deriving DecidableEq, Repr

/-- A partition key: the values of the configured partition columns
`['year', 'month']`. -/
abbrev PKey := Int × Int

/-- The partition key of a row, projected from its partition columns. -/
def rowKey (r : Row) : PKey := (r.year, r.month)

/-- Modelled from the spec: the partition router (§4.4) of the dataset
writer, which is not in the repository's sources.  The distinct partition
keys occurring in the input stream. -/
def routeKeys (rows : List Row) : List PKey := (rows.map rowKey).dedup

/-- Modelled from the spec: per-partition accumulation (§4.4, §4.5) of the
dataset writer, which is not in the repository's sources.  The rows routed
to a given key, in arrival order. -/
def partRows (rows : List Row) (k : PKey) : List Row :=
  rows.filter fun r => decide (rowKey r = k)

/-- Modelled from the spec: row-group formation of the compacting writer
(§4.5), which is not in the repository's sources.  Rows buffered for one
partition are cut into row groups: a group is flushed exactly when the
buffer reaches `n = max_rows_per_group` rows (the spec's policy "prefer
filling to max_rows_per_group, only emit early at true end-of-stream"),
and the residual rows at end-of-stream form a final, possibly smaller,
group. -/
def chunksAux (n : Nat) : Nat → List α → List (List α)
  | _, [] => []
  | 0, _ :: _ => []
  | fuel + 1, x :: xs =>
    if n = 0 then [] else (x :: xs).take n :: chunksAux n fuel ((x :: xs).drop n)

/-- The groups cut from `l`: `chunks n l` splits `l` into consecutive runs
of exactly `n` elements, the last run possibly shorter.  The fuel argument
of `chunksAux` only bounds the recursion depth. -/
def chunks (n : Nat) (l : List α) : List (List α) := chunksAux n l.length l

theorem chunksAux_congr {n : Nat} :
    ∀ (f1 f2 : Nat) (l : List α), l.length ≤ f1 → l.length ≤ f2 →
      chunksAux n f1 l = chunksAux n f2 l := by
  intro f1
  induction f1 with
  | zero =>
    intro f2 l hl1 _
    have hl : l = [] := by
      cases l with
      | nil => rfl
      | cons x xs => simp at hl1
    subst hl
    cases f2 <;> rfl
  | succ f1 ih =>
    intro f2 l hl1 hl2
    cases l with
    | nil => cases f2 <;> rfl
    | cons x xs =>
      cases f2 with
      | zero => simp at hl2
      | succ f2 =>
        simp only [chunksAux]
        by_cases hn : n = 0
        · rw [if_pos hn, if_pos hn]
        · rw [if_neg hn, if_neg hn]
          congr 1
          apply ih
          · simp only [List.length_drop, List.length_cons]
            simp only [List.length_cons] at hl1
            omega
          · simp only [List.length_drop, List.length_cons]
            simp only [List.length_cons] at hl2
            omega

theorem chunks_nil (n : Nat) : chunks n ([] : List α) = [] := rfl

theorem chunks_zero (l : List α) : chunks 0 l = [] := by
  cases l with
  | nil => rfl
  | cons x xs => simp [chunks, chunksAux]

theorem chunks_cons_eq {n : Nat} {l : List α} (hn : n ≠ 0) (hl : l ≠ []) :
    chunks n l = l.take n :: chunks n (l.drop n) := by
  obtain ⟨x, xs, rfl⟩ := List.exists_cons_of_ne_nil hl
  unfold chunks
  simp only [List.length_cons, chunksAux]
  rw [if_neg hn]
  congr 1
  apply chunksAux_congr
  · simp only [List.length_drop, List.length_cons]
    omega
  · exact Nat.le_refl _

theorem chunks_ne_nil {n : Nat} {l : List α} (hn : n ≠ 0) (hl : l ≠ []) :
    chunks n l ≠ [] := by
  rw [chunks_cons_eq hn hl]
  simp

theorem chunksAux_flatten {n : Nat} (hn : n ≠ 0) :
    ∀ (fuel : Nat) (l : List α), l.length ≤ fuel →
      (chunksAux n fuel l).flatten = l := by
  intro fuel
  induction fuel with
  | zero =>
    intro l hl
    cases l with
    | nil => rfl
    | cons x xs => simp at hl
  | succ fuel ih =>
    intro l hl
    cases l with
    | nil => rfl
    | cons x xs =>
      simp only [chunksAux]
      rw [if_neg hn]
      simp only [List.flatten_cons]
      rw [ih _ ?hfuel]
      · exact List.take_append_drop _ _
      case hfuel =>
        simp only [List.length_drop, List.length_cons]
        simp only [List.length_cons] at hl
        omega

/-- Concatenating the row groups cut from a buffer restores the buffer. -/
theorem chunks_flatten {n : Nat} (hn : n ≠ 0) (l : List α) :
    (chunks n l).flatten = l :=
  chunksAux_flatten hn l.length l (Nat.le_refl _)

theorem chunksAux_length_le {n : Nat} :
    ∀ (fuel : Nat) (l : List α) (c : List α), c ∈ chunksAux n fuel l →
      c.length ≤ n := by
  intro fuel
  induction fuel with
  | zero =>
    intro l c hc
    cases l <;> simp [chunksAux] at hc
  | succ fuel ih =>
    intro l c hc
    cases l with
    | nil => simp [chunksAux] at hc
    | cons x xs =>
      simp only [chunksAux] at hc
      by_cases hn : n = 0
      · rw [if_pos hn] at hc
        simp at hc
      · rw [if_neg hn] at hc
        rcases List.mem_cons.mp hc with h1 | h1
        · subst h1
          simp
        · exact ih _ c h1

/-- No row group exceeds the cut size. -/
theorem chunks_length_le {n : Nat} {l : List α} {c : List α}
    (hc : c ∈ chunks n l) : c.length ≤ n :=
  chunksAux_length_le l.length l c hc

theorem chunksAux_mem_ne_nil {n : Nat} :
    ∀ (fuel : Nat) (l : List α) (c : List α), c ∈ chunksAux n fuel l →
      c ≠ [] := by
  intro fuel
  induction fuel with
  | zero =>
    intro l c hc
    cases l <;> simp [chunksAux] at hc
  | succ fuel ih =>
    intro l c hc
    cases l with
    | nil => simp [chunksAux] at hc
    | cons x xs =>
      simp only [chunksAux] at hc
      by_cases hn : n = 0
      · rw [if_pos hn] at hc
        simp at hc
      · rw [if_neg hn] at hc
        rcases List.mem_cons.mp hc with h1 | h1
        · subst h1
          simp only [ne_eq, List.take_eq_nil_iff]
          push_neg
          exact ⟨hn, by simp⟩
        · exact ih _ c h1

/-- Every row group cut from a nonempty buffer is nonempty. -/
theorem chunks_mem_ne_nil {n : Nat} {l : List α} {c : List α}
    (hc : c ∈ chunks n l) : c ≠ [] :=
  chunksAux_mem_ne_nil l.length l c hc

theorem chunksAux_dropLast {n : Nat} :
    ∀ (fuel : Nat) (l : List α) (c : List α), l.length ≤ fuel →
      c ∈ (chunksAux n fuel l).dropLast → c.length = n := by
  intro fuel
  induction fuel with
  | zero =>
    intro l c _ hc
    cases l <;> simp [chunksAux] at hc
  | succ fuel ih =>
    intro l c hl hc
    cases l with
    | nil => simp [chunksAux] at hc
    | cons x xs =>
      simp only [chunksAux] at hc
      by_cases hn : n = 0
      · rw [if_pos hn] at hc
        simp at hc
      · rw [if_neg hn] at hc
        by_cases hrest : chunksAux n fuel ((x :: xs).drop n) = []
        · rw [hrest] at hc
          simp at hc
        · rw [List.dropLast_cons_of_ne_nil hrest] at hc
          have hfuel : ((x :: xs).drop n).length ≤ fuel := by
            simp only [List.length_drop, List.length_cons]
            simp only [List.length_cons] at hl
            omega
          rcases List.mem_cons.mp hc with h1 | h1
          · subst h1
            have hlen : n ≤ (x :: xs).length := by
              by_contra hlt
              push_neg at hlt
              have hd : (x :: xs).drop n = [] :=
                List.drop_eq_nil_of_le (Nat.le_of_lt hlt)
              rw [hd] at hrest
              cases fuel <;> exact hrest rfl
            simp only [List.length_take, List.length_cons]
            simp only [List.length_cons] at hlen
            omega
          · exact ih _ c hfuel h1

/-- Every row group except the very last one has exactly the cut size. -/
theorem chunks_dropLast {n : Nat} {l : List α} {c : List α}
    (hc : c ∈ (chunks n l).dropLast) : c.length = n :=
  chunksAux_dropLast l.length l c (Nat.le_refl _) hc

/-- State of the file-rolling loop: files already closed, the row groups of
the file currently open, and the open file's running row count. -/
structure PackSt (α : Type) where
  done : List (List (List α))
  cur : List (List α)
  cnt : Nat
deriving DecidableEq, Repr

/-- Modelled from the spec: the file-roll transition of the compacting
writer (§4.5), which is not in the repository's sources.  A row group is
appended to the open file unless doing so would push the file's row count
past `cap = max_rows_per_file`; in that case the open file is closed first
(flush before exceeding, never after overshooting). -/
def packStep (cap : Nat) (st : PackSt α) (g : List α) : PackSt α :=
  if st.cur.isEmpty ∨ st.cnt + g.length ≤ cap then
    ⟨st.done, st.cur ++ [g], st.cnt + g.length⟩
  else
    ⟨st.done ++ [st.cur], [g], g.length⟩

/-- Closing the writer at end-of-stream: the open file, if any, is closed. -/
def packFinish (st : PackSt α) : List (List (List α)) :=
  if st.cur.isEmpty then st.done else st.done ++ [st.cur]

/-- Modelled from the spec: the grouping of a partition's row groups into
output files by the compacting writer (§4.5), which is not in the
repository's sources.  Each output file is a maximal run of consecutive
row groups whose total row count stays within `cap = max_rows_per_file`. -/
def packGroups (cap : Nat) (gs : List (List α)) : List (List (List α)) :=
  packFinish (gs.foldl (packStep cap) ⟨[], [], 0⟩)

/-- Loop invariant of the file-rolling fold: the closed files followed by
the open file hold exactly the row groups consumed so far, the running
count is accurate, closed files are nonempty, and the open file is only
empty before the first group arrives. -/
def PackInv (pref : List (List α)) (st : PackSt α) : Prop :=
  st.done.flatten ++ st.cur = pref ∧
  st.cnt = (st.cur.map List.length).sum ∧
  (∀ f ∈ st.done, f ≠ []) ∧
  (st.cur = [] → st.done = [])

theorem packStep_inv {cap : Nat} {pref : List (List α)} {st : PackSt α}
    (h : PackInv pref st) (g : List α) :
    PackInv (pref ++ [g]) (packStep cap st g) := by
  obtain ⟨h1, h2, h3, h4⟩ := h
  unfold packStep
  by_cases hcond : (st.cur.isEmpty ∨ st.cnt + g.length ≤ cap)
  · rw [if_pos hcond]
    refine ⟨by rw [← h1]; simp, by simp [h2], h3, ?_⟩
    intro habs
    simp at habs
  · rw [if_neg hcond]
    push_neg at hcond
    refine ⟨by rw [← h1]; simp, by simp, ?_, ?_⟩
    · intro f hf
      rcases List.mem_append.mp hf with hf1 | hf1
      · exact h3 f hf1
      · rw [List.mem_singleton.mp hf1]
        intro habs
        exact hcond.1 (List.isEmpty_iff.mpr habs)
    · intro habs
      simp at habs

theorem packFoldl_inv {cap : Nat} (gs : List (List α)) :
    ∀ (pref : List (List α)) (st : PackSt α), PackInv pref st →
      PackInv (pref ++ gs) (gs.foldl (packStep cap) st) := by
  induction gs with
  | nil => intro pref st h; simpa using h
  | cons g rest ih =>
    intro pref st h
    have h2 := ih (pref ++ [g]) (packStep cap st g) (packStep_inv h g)
    simpa using h2

theorem packGroups_inv (cap : Nat) (gs : List (List α)) :
    PackInv gs (gs.foldl (packStep cap) ⟨[], [], 0⟩) := by
  have h0 : PackInv ([] : List (List α)) (⟨[], [], 0⟩ : PackSt α) := by
    refine ⟨rfl, rfl, by intro f hf; simp at hf, fun _ => rfl⟩
  simpa using packFoldl_inv gs [] _ h0

/-- The files produced by the file roll hold exactly the input row groups,
in order. -/
theorem packGroups_flatten (cap : Nat) (gs : List (List α)) :
    (packGroups cap gs).flatten = gs := by
  obtain ⟨h1, _, _, h4⟩ := packGroups_inv cap gs
  unfold packGroups packFinish
  by_cases hcur : (gs.foldl (packStep cap) ⟨[], [], 0⟩).cur = []
  · rw [if_pos (List.isEmpty_iff.mpr hcur)]
    rw [hcur] at h1
    simpa using h1
  · rw [if_neg (fun h => hcur (List.isEmpty_iff.mp h))]
    simpa using h1

/-- Every produced file is nonempty (contains at least one row group). -/
theorem packGroups_mem_ne_nil {cap : Nat} {gs : List (List α)}
    {f : List (List α)} (hf : f ∈ packGroups cap gs) : f ≠ [] := by
  obtain ⟨_, _, h3, _⟩ := packGroups_inv cap gs
  unfold packGroups packFinish at hf
  by_cases hcur : (gs.foldl (packStep cap) ⟨[], [], 0⟩).cur = []
  · rw [if_pos (List.isEmpty_iff.mpr hcur)] at hf
    exact h3 f hf
  · rw [if_neg (fun h => hcur (List.isEmpty_iff.mp h))] at hf
    rcases List.mem_append.mp hf with hf1 | hf1
    · exact h3 f hf1
    · rw [List.mem_singleton.mp hf1]
      exact hcur

/-- A nonempty stream of row groups yields at least one output file. -/
theorem packGroups_ne_nil {cap : Nat} {gs : List (List α)} (hgs : gs ≠ []) :
    packGroups cap gs ≠ [] := by
  obtain ⟨h1, _, _, h4⟩ := packGroups_inv cap gs
  unfold packGroups packFinish
  by_cases hcur : (gs.foldl (packStep cap) ⟨[], [], 0⟩).cur = []
  · exfalso
    rw [hcur, h4 hcur] at h1
    simp at h1
    exact hgs h1
  · rw [if_neg (fun h => hcur (List.isEmpty_iff.mp h))]
    simp

/-- Capacity invariant of the file-rolling fold: when every row group fits
in the capacity on its own, no file's total ever exceeds the capacity. -/
def PackBnd (cap : Nat) (st : PackSt α) : Prop :=
  (∀ f ∈ st.done, (f.map List.length).sum ≤ cap) ∧
  (st.cur ≠ [] → (st.cur.map List.length).sum ≤ cap)

theorem packStep_bnd {cap : Nat} {st : PackSt α} {pref : List (List α)}
    (hinv : PackInv pref st) (h : PackBnd cap st) (g : List α)
    (hg : g.length ≤ cap) : PackBnd cap (packStep cap st g) := by
  obtain ⟨h1, h2⟩ := h
  obtain ⟨_, hcnt, _, _⟩ := hinv
  unfold packStep
  by_cases hcond : (st.cur.isEmpty ∨ st.cnt + g.length ≤ cap)
  · rw [if_pos hcond]
    refine ⟨h1, fun _ => ?_⟩
    rcases hcond with hc | hc
    · have hc2 : st.cur = [] := List.isEmpty_iff.mp hc
      simp [hc2, hg]
    · rw [hcnt] at hc
      simpa using hc
  · rw [if_neg hcond]
    push_neg at hcond
    refine ⟨?_, fun _ => by simpa using hg⟩
    intro f hf
    rcases List.mem_append.mp hf with hf1 | hf1
    · exact h1 f hf1
    · rw [List.mem_singleton.mp hf1]
      exact h2 (fun habs => hcond.1 (List.isEmpty_iff.mpr habs))

theorem packFoldl_bnd (cap : Nat) (gs : List (List α)) :
    ∀ (pref : List (List α)) (st : PackSt α), PackInv pref st → PackBnd cap st →
      (∀ g ∈ gs, g.length ≤ cap) →
      PackBnd cap (gs.foldl (packStep cap) st) := by
  induction gs with
  | nil => intro pref st _ h _; simpa using h
  | cons g rest ih =>
    intro pref st hinv h hg
    exact ih (pref ++ [g]) (packStep cap st g) (packStep_inv hinv g)
      (packStep_bnd hinv h g (hg g (List.mem_cons_self g rest)))
      (fun g1 hg1 => hg g1 (List.mem_cons_of_mem g hg1))

/-- Under the per-group capacity hypothesis, every output file's total row
count respects the capacity. -/
theorem packGroups_sum_le {cap : Nat} {gs : List (List α)}
    (hg : ∀ g ∈ gs, g.length ≤ cap) {f : List (List α)}
    (hf : f ∈ packGroups cap gs) : (f.map List.length).sum ≤ cap := by
  have h0inv : PackInv ([] : List (List α)) (⟨[], [], 0⟩ : PackSt α) :=
    ⟨rfl, rfl, by intro f hf; simp at hf, fun _ => rfl⟩
  have h0 : PackBnd cap (⟨[], [], 0⟩ : PackSt α) := by
    refine ⟨by intro f hf; simp at hf, fun h => absurd rfl h⟩
  obtain ⟨h1, h2⟩ := packFoldl_bnd cap gs [] _ h0inv h0 hg
  unfold packGroups packFinish at hf
  by_cases hcur : (gs.foldl (packStep cap) ⟨[], [], 0⟩).cur = []
  · rw [if_pos (List.isEmpty_iff.mpr hcur)] at hf
    exact h1 f hf
  · rw [if_neg (fun h => hcur (List.isEmpty_iff.mp h))] at hf
    rcases List.mem_append.mp hf with hf1 | hf1
    · exact h1 f hf1
    · rw [List.mem_singleton.mp hf1]
      exact h2 hcur

/-- A row group that is not the last group of its file is not the last
group of the whole stream either: the stream is the in-order concatenation
of the files. -/
theorem mem_dropLast_flatten {L : List (List (List α))} {f : List (List α)}
    {g : List α} (hf : f ∈ L) (hg : g ∈ f.dropLast) : g ∈ L.flatten.dropLast := by
  obtain ⟨A, B, rfl⟩ := List.append_of_mem hf
  rw [List.flatten_append, List.flatten_cons]
  cases hB : B.flatten with
  | nil =>
    have hfne : f ≠ [] := by
      intro habs
      rw [habs] at hg
      simp at hg
    rw [List.append_nil]
    rw [List.dropLast_append_of_ne_nil A.flatten hfne]
    exact List.mem_append_right _ hg
  | cons b bs =>
    rw [List.dropLast_append_of_ne_nil A.flatten (by simp : (f ++ b :: bs : List (List α)) ≠ [])]
    rw [List.dropLast_append_of_ne_nil f (by simp : (b :: bs : List (List α)) ≠ [])]
    have hgf : g ∈ f := (List.dropLast_sublist f).subset hg
    exact List.mem_append_right _ (List.mem_append_left _ hgf)

theorem flatMap_congr_mem {κ δ} {ks : List κ} {g g1 : κ → List δ}
    (h : ∀ k ∈ ks, g k = g1 k) : ks.flatMap g = ks.flatMap g1 := by
  induction ks with
  | nil => rfl
  | cons k rest ih =>
    simp only [List.flatMap_cons]
    rw [h k (List.mem_cons_self k rest), ih (fun k1 hk1 => h k1 (List.mem_cons_of_mem k hk1))]

/-- Splitting a list by the distinct values of a projection and
concatenating the parts is a permutation of the list: the router
neither drops nor duplicates rows. -/
theorem flatMap_filter_key_perm {β : Type} [DecidableEq β] (f : α → β) :
    ∀ (ks : List β), ks.Nodup → ∀ (l : List α), (∀ x ∈ l, f x ∈ ks) →
      (ks.flatMap fun k => l.filter fun x => decide (f x = k)).Perm l := by
  intro ks
  induction ks with
  | nil =>
    intro _ l hcov
    have hl : l = [] := List.eq_nil_iff_forall_not_mem.mpr fun x hx => by
      simp at hcov
      exact absurd hx (hcov x)
    subst hl
    simp
  | cons k rest ih =>
    intro hnd l hcov
    obtain ⟨hk, hnd1⟩ := List.nodup_cons.mp hnd
    simp only [List.flatMap_cons]
    have hcong : ∀ k1 ∈ rest,
        (l.filter fun x => decide (f x = k1)) =
          ((l.filter fun x => !decide (f x = k)).filter fun x => decide (f x = k1)) := by
      intro k1 hk1
      rw [List.filter_filter]
      have hne : k1 ≠ k := fun habs => hk (habs ▸ hk1)
      apply List.filter_congr
      intro x _
      by_cases hx : f x = k1
      · simp [hx, hne]
      · simp [hx]
    have heq := @flatMap_congr_mem β α rest
      (fun k1 => l.filter fun x => decide (f x = k1))
      (fun k1 => (l.filter fun x => !decide (f x = k)).filter fun x => decide (f x = k1))
      hcong
    rw [heq]
    have hcov1 : ∀ x ∈ (l.filter fun x => !decide (f x = k)), f x ∈ rest := by
      intro x hx
      obtain ⟨hxl, hxk⟩ := List.mem_filter.mp hx
      have hfk : f x ≠ k := by simpa using hxk
      rcases List.mem_cons.mp (hcov x hxl) with h1 | h1
      · exact absurd h1 hfk
      · exact h1
    have hperm := ih hnd1 (l.filter fun x => !decide (f x = k)) hcov1
    exact (List.Perm.append_left _ hperm).trans (List.filter_append_perm _ l)


/-- The basename of an output file, from the template
`basename_template` string of `compaction.py` and `ingestion.py`: the
f-string evaluates `uuid4()` once per invocation, so the prefix `u` is
fixed for the whole invocation and only the sequence index `i` varies. -/
def mkBasename (u : String) (i : Nat) : String :=
  u ++ "-" ++ toString i ++ ".parquet"

/-- One parquet file written into the output dataset: its hive partition
directory (the `year`/`month` key), its basename, and its row groups. -/
structure OutFile where
  key : PKey
  name : String
  groups : List (List Row)
deriving DecidableEq, Repr

/-- Modelled from the spec: the files that the dataset writer produces for
one partition key (§4.5), which is not in the repository's sources.  The
partition's rows are cut into row groups of `maxG = max_rows_per_group`
(last group possibly smaller), the groups are rolled into files of at most
`maxF = max_rows_per_file` rows, and the files are named from the
invocation's uuid and a per-directory sequence index.
`min_rows_per_group` does not change the produced sizes under the spec's
policy of packing groups up to `max_rows_per_group` (§4.5). -/
def partitionOut (u : String) (maxG maxF : Nat) (rows : List Row) (k : PKey) :
    List OutFile :=
  (packGroups maxF (chunks maxG (partRows rows k))).enum.map fun p =>
    ⟨k, mkBasename u p.1, p.2⟩

/-- Modelled from the spec: the full output of one `ds.write_dataset` call
of `compaction.py` with `partitioning=['year', 'month']` (the writer is
not in the repository's sources): the files produced for every partition
key occurring in the input stream. -/
def compactOut (u : String) (maxG maxF : Nat) (rows : List Row) : List OutFile :=
  (routeKeys rows).flatMap (partitionOut u maxG maxF rows)

/-- All rows stored in a list of output files, in file order. -/
def datasetRows (s : List OutFile) : List Row :=
  s.flatMap fun f => f.groups.flatten

/-- The logical content of an output dataset: partition keys and row
groups, with physical file names erased. -/
def logicalView (s : List OutFile) : List (PKey × List (List Row)) :=
  s.map fun f => (f.key, f.groups)

/-- The files of a dataset that sit in the directory of partition `k`. -/
def partitionFiles (k : PKey) (s : List OutFile) : List OutFile :=
  s.filter fun f => decide (f.key = k)

/-- Modelled from the spec: the `delete_matching` finalizer (§4.6) of the
dataset writer, which is not in the repository's sources.  Every
pre-existing file in a partition directory that receives new output is
deleted; partitions receiving no output are untouched. -/
def writeDatasetDM (prev new : List OutFile) : List OutFile :=
  (prev.filter fun f => !decide (f.key ∈ new.map OutFile.key)) ++ new

/-- One invocation of `compact_dataset` against an output root already
holding the files `prev`. -/
def runCompact (u : String) (maxG maxF : Nat) (rows : List Row)
    (prev : List OutFile) : List OutFile :=
  writeDatasetDM prev (compactOut u maxG maxF rows)

/-- Outcome of one CLI invocation: whether it exited cleanly, the error
message if not, and the files below the output root afterwards. -/
structure RunResult where
  exitOk : Bool
  message : String
  outFiles : List OutFile
deriving DecidableEq, Repr

/-- The `main` entry point of `compaction.py`.  `inContent` is `none` when
`in_path.is_dir()` is false, in which case `FileNotFoundError` is raised
before anything is written; otherwise it holds the rows of the input
dataset.  A pre-existing output directory is removed with `shutil.rmtree`
before the writer runs, so the write starts from an empty root whatever
`prevOut` was. -/
def compactionMain (inPath : String) (inContent : Option (List Row))
    (prevOut : List OutFile) (u : String) (maxG maxF : Nat) : RunResult :=
  match inContent with
  | none => ⟨false, "Path \"" ++ inPath ++ "\" does not exists", prevOut⟩
  | some rows => ⟨true, "", writeDatasetDM [] (compactOut u maxG maxF rows)⟩

/-- The intermediate filesystem states of one `compaction.py` run started
through `main`: before the run, after `shutil.rmtree(out_path)`, and after
the writer finished. -/
structure RunTrace where
  initial : List OutFile
  afterRmtree : List OutFile
  final : List OutFile
deriving DecidableEq, Repr

/-- The states that `main` of `compaction.py` drives the output root
through when the input exists: `shutil.rmtree` empties the root (lines
109-110) before `compact_dataset` writes the new files. -/
def compactionMainTrace (rows : List Row) (prevOut : List OutFile)
    (u : String) (maxG maxF : Nat) : RunTrace :=
  ⟨prevOut, [], writeDatasetDM [] (compactOut u maxG maxF rows)⟩

theorem partitionOut_key {u : String} {maxG maxF : Nat} {rows : List Row}
    {k : PKey} {f : OutFile} (hf : f ∈ partitionOut u maxG maxF rows k) :
    f.key = k := by
  obtain ⟨p, _, rfl⟩ := List.mem_map.mp hf
  rfl

theorem partitionOut_groups_mem {u : String} {maxG maxF : Nat} {rows : List Row}
    {k : PKey} {f : OutFile} (hf : f ∈ partitionOut u maxG maxF rows k) :
    f.groups ∈ packGroups maxF (chunks maxG (partRows rows k)) := by
  obtain ⟨p, hp, rfl⟩ := List.mem_map.mp hf
  have hsnd : p.2 ∈ packGroups maxF (chunks maxG (partRows rows k)) := by
    rw [← List.enum_map_snd (packGroups maxF (chunks maxG (partRows rows k)))]
    exact List.mem_map_of_mem Prod.snd hp
  exact hsnd

/-- The rows written for one partition are exactly the rows routed to it. -/
theorem partitionOut_rows (u : String) {maxG : Nat} (maxF : Nat)
    (rows : List Row) (k : PKey) (hG : maxG ≠ 0) :
    ((partitionOut u maxG maxF rows k).flatMap fun f => f.groups.flatten) =
      partRows rows k := by
  unfold partitionOut
  rw [List.flatMap_map]
  have h1 : ((packGroups maxF (chunks maxG (partRows rows k))).enum.flatMap
      fun p => p.2.flatten) =
      ((packGroups maxF (chunks maxG (partRows rows k))).enum.map Prod.snd).flatMap
        (fun c => c.flatten) := by
    rw [List.flatMap_map]
  rw [h1, List.enum_map_snd]
  rw [List.flatMap_def, ← List.flatten_flatten, packGroups_flatten]
  exact chunks_flatten hG _

theorem compactOut_logicalView (u1 u2 : String) (maxG maxF : Nat)
    (rows : List Row) :
    logicalView (compactOut u1 maxG maxF rows) =
      logicalView (compactOut u2 maxG maxF rows) := by
  simp [compactOut, logicalView, partitionOut, List.map_flatMap, List.map_map,
    Function.comp_def]

theorem compactOut_map_key (u1 u2 : String) (maxG maxF : Nat)
    (rows : List Row) :
    (compactOut u1 maxG maxF rows).map OutFile.key =
      (compactOut u2 maxG maxF rows).map OutFile.key := by
  simp [compactOut, partitionOut, List.map_flatMap, List.map_map, Function.comp_def]

theorem partRows_ne_nil {rows : List Row} {k : PKey} (hk : k ∈ routeKeys rows) :
    partRows rows k ≠ [] := by
  have hk1 : k ∈ rows.map rowKey := List.mem_dedup.mp hk
  obtain ⟨r, hr, hrk⟩ := List.mem_map.mp hk1
  have hmem : r ∈ partRows rows k :=
    List.mem_filter.mpr ⟨hr, by simp [hrk]⟩
  exact List.ne_nil_of_mem hmem

theorem partitionOut_ne_nil (u : String) (maxG maxF : Nat) {rows : List Row}
    {k : PKey} (hG : maxG ≠ 0) (hk : k ∈ routeKeys rows) :
    partitionOut u maxG maxF rows k ≠ [] := by
  have h1 : chunks maxG (partRows rows k) ≠ [] :=
    chunks_ne_nil hG (partRows_ne_nil hk)
  have h2 : packGroups maxF (chunks maxG (partRows rows k)) ≠ [] :=
    packGroups_ne_nil h1
  unfold partitionOut
  simp only [ne_eq, List.map_eq_nil_iff]
  intro habs
  have hlen := congrArg List.length habs
  simp at hlen
  exact h2 hlen

theorem compactOut_mem_key {u : String} {maxG maxF : Nat} {rows : List Row}
    {f : OutFile} (hf : f ∈ compactOut u maxG maxF rows) :
    f.key ∈ (compactOut u maxG maxF rows).map OutFile.key :=
  List.mem_map_of_mem OutFile.key hf

/-- A partition directory that receives output holds exactly the new files
after a delete-matching write; every stale file there is removed. -/
theorem writeDatasetDM_partitionFiles {prev new : List OutFile} {k : PKey}
    (hk : k ∈ new.map OutFile.key) :
    partitionFiles k (writeDatasetDM prev new) = partitionFiles k new := by
  unfold writeDatasetDM partitionFiles
  rw [List.filter_append]
  have hnil : ((prev.filter fun f => !decide (f.key ∈ new.map OutFile.key)).filter
      fun f => decide (f.key = k)) = [] := by
    rw [List.filter_eq_nil_iff]
    intro f hf hdk
    obtain ⟨_, hq⟩ := List.mem_filter.mp hf
    have hfk : f.key = k := of_decide_eq_true hdk
    rw [hfk] at hq
    simp [hk] at hq
  rw [hnil, List.nil_append]

/-- A timestamp value as exposed by the pandas datetime accessors used in
`process_table`: its calendar year, month and day. -/
structure Timestamp where
  year : Int
  month : Int
  day : Int
deriving DecidableEq, Repr

/-- A cell value of an in-memory table: a (possibly missing, `NaT`)
timestamp, a (possibly missing) integer as produced by the datetime
accessors, or an opaque value of any other column type. -/
inductive Val where
  | ts : Option Timestamp → Val
  | intv : Option Int → Val
  | raw : Nat → Val
deriving DecidableEq, Repr

/-- An in-memory table (`pa.Table`): an ordered list of named,
equal-length columns. -/
structure Table where
  cols : List (String × List Val)
deriving DecidableEq, Repr

/-- Column lookup by name, as `df[name]` does. -/
def getCol (t : Table) (name : String) : Option (List Val) :=
  (t.cols.find? fun c => c.1 == name).map Prod.snd

/-- Whether a cell holds a timestamp (the column has datetime dtype). -/
def isTs : Val → Bool
  | .ts _ => true
  | _ => false

/-- The `dt.year` accessor on one cell: the year of a valid timestamp, and
a missing value for `NaT` (pandas null-propagates; `pa.Array.from_pandas`
turns the resulting NaN into a null). -/
def valYear : Val → Val
  | .ts (some x) => .intv (some x.year)
  | _ => .intv none

/-- The `dt.month` accessor on one cell, null-propagating like `valYear`. -/
def valMonth : Val → Val
  | .ts (some x) => .intv (some x.month)
  | _ => .intv none

/-- The `dt.day` accessor on one cell, null-propagating like `valYear`. -/
def valDay : Val → Val
  | .ts (some x) => .intv (some x.day)
  | _ => .intv none

/-- The row transformer `process_table` of `ingestion.py` (lines 81-96):
looks up the `datetime` column (raising `KeyError` if absent, and the
`.dt` accessor raising if the column is not datetime-typed), derives
`year`, `month` and `day` series element-wise, and appends them as new
columns after all existing columns. -/
def processTable (t : Table) : Except String Table :=
  match getCol t "datetime" with
  | none => .error "KeyError: datetime"
  | some dt =>
    if dt.all isTs then
      .ok ⟨t.cols ++ [("year", dt.map valYear), ("month", dt.map valMonth),
        ("day", dt.map valDay)]⟩
    else
      .error "AttributeError: can only use .dt accessor with datetimelike values"

/-- One parquet file written by `process_single_file`: its partition key
(the `year` and `month` cell values), its basename, and the indices of the
source-table rows it holds. -/
structure IngOutFile where
  key : Val × Val
  name : String
  rowIdxs : List Nat
deriving DecidableEq, Repr

/-- The per-row partition keys of a processed table: the `year` and
`month` columns zipped row-wise. -/
def ingestKeysOf (t : Table) : List (Val × Val) :=
  ((getCol t "year").getD []).zip ((getCol t "month").getD [])

/-- The row indices carrying a given partition key. -/
def rowsWithKey (ks : List (Val × Val)) (k : Val × Val) : List Nat :=
  (ks.enum.filter fun p => decide (p.2 = k)).map Prod.fst

/-- Modelled from the spec: the `ds.write_dataset` call of
`process_single_file` (the writer is not in the repository's sources).
With no row-count thresholds set, one file is written per partition
directory, named from the invocation's uuid and the per-directory sequence
index 0. -/
def writeFilesFor (u : String) (t : Table) : List IngOutFile :=
  (ingestKeysOf t).dedup.map fun k =>
    ⟨k, mkBasename u 0, rowsWithKey (ingestKeysOf t) k⟩

/-- `process_single_file` of `ingestion.py`: read one parquet file as a
table, transform it with `process_table`, write the result partitioned by
`year`/`month` with `existing_data_behavior='overwrite_or_ignore'`.  `u`
is the uuid drawn by this invocation. -/
def ingestSingle (u : String) (t : Table) : Except String (List IngOutFile) :=
  (processTable t).map (writeFilesFor u)

/-- Outcome of one `ingestion.py` run. -/
structure IngRunResult where
  exitOk : Bool
  message : String
  outFiles : List IngOutFile
deriving DecidableEq, Repr

/-- The per-file loop of `ingestion.py` `main`: files are processed in
queue order; `overwrite_or_ignore` adds the new files alongside existing
ones; an uncaught transform error aborts the loop, leaving the files
already written. -/
def ingestLoop : List (String × Table) → List IngOutFile → IngRunResult
  | [], st => ⟨true, "", st⟩
  | (u, t) :: rest, st =>
    match ingestSingle u t with
    | .error e => ⟨false, e, st⟩
    | .ok fs => ingestLoop rest (st ++ fs)

/-- The `main` entry point of `ingestion.py`.  `inContent` is `none` when
`in_path.is_dir()` is false (a `FileNotFoundError` is raised before
anything is written); otherwise it holds the globbed parquet files as
tables, each paired with the uuid its `process_single_file` invocation
draws.  A pre-existing output directory is removed with `shutil.rmtree`
before the loop, so writing starts from an empty root. -/
def ingestionMain (inPath : String) (inContent : Option (List (String × Table)))
    (prevOut : List IngOutFile) : IngRunResult :=
  match inContent with
  | none => ⟨false, "Path \"" ++ inPath ++ "\" does not exists", prevOut⟩
  | some items => ingestLoop items []

theorem processTable_ok {t : Table} {dt : List Val}
    (h1 : getCol t "datetime" = some dt) (h2 : dt.all isTs = true) :
    processTable t = .ok ⟨t.cols ++ [("year", dt.map valYear),
      ("month", dt.map valMonth), ("day", dt.map valDay)]⟩ := by
  unfold processTable
  rw [h1]
  simp [h2]

theorem processTable_missing {t : Table}
    (h : getCol t "datetime" = none) :
    processTable t = .error "KeyError: datetime" := by
  unfold processTable
  rw [h]

/-! Claim theorems. -/

/-- Concrete input rows used by witnesses: three rows in partition
`(2020, 1)`. -/
def wRows : List Row := [⟨2020, 1, 0⟩, ⟨2020, 1, 1⟩, ⟨2020, 1, 2⟩]

/-- The single output file that compacting `wRows` with
`max_rows_per_group = 2`, `max_rows_per_file = 4` produces. -/
def wFile : OutFile :=
  ⟨(2020, 1), mkBasename "a" 0, [[⟨2020, 1, 0⟩, ⟨2020, 1, 1⟩], [⟨2020, 1, 2⟩]]⟩

/-- The first (non-last) row group of `wFile`. -/
def wGrp : List Row := [⟨2020, 1, 0⟩, ⟨2020, 1, 1⟩]

/-- Concrete input rows spanning two partitions. -/
def c1Rows : List Row :=
  [⟨2020, 1, 0⟩, ⟨2020, 2, 1⟩, ⟨2020, 1, 2⟩, ⟨2020, 2, 3⟩, ⟨2020, 1, 4⟩]

/-- Claim C1: compaction conserves rows.  The rows stored across all
output files of `compact_dataset` are a permutation (equal multiset) of
the input rows: none dropped, none duplicated. -/
theorem claim_C1_row_conservation (u : String) (maxG maxF : Nat)
    (rows : List Row) (hG : 0 < maxG) :
    (datasetRows (compactOut u maxG maxF rows)).Perm rows := by
  unfold datasetRows compactOut
  rw [List.flatMap_assoc]
  have h2 : ((routeKeys rows).flatMap fun k =>
      (partitionOut u maxG maxF rows k).flatMap fun f => f.groups.flatten) =
      (routeKeys rows).flatMap fun k => partRows rows k :=
    flatMap_congr_mem fun k _ =>
      partitionOut_rows u maxF rows k (Nat.pos_iff_ne_zero.mp hG)
  rw [h2]
  unfold routeKeys partRows
  exact flatMap_filter_key_perm rowKey _ (List.nodup_dedup _) rows
    (fun x hx => List.mem_dedup.mpr (List.mem_map_of_mem rowKey hx))

/-- Claim C1 witness: row conservation evaluated on a concrete dataset
spanning two partitions. -/
theorem claim_C1_row_conservation_witness :
    0 < 2 ∧ (datasetRows (compactOut "a" 2 4 c1Rows)).Perm c1Rows :=
  ⟨by decide, claim_C1_row_conservation "a" 2 4 c1Rows (by decide)⟩

/-- Claim C3: every output row group that is not the last group of its
file has between `min_rows_per_group` and `max_rows_per_group` rows (under
the modelled policy such a group has exactly `max_rows_per_group` rows);
only the last group of a file may be smaller. -/
theorem claim_C3_row_group_bounds (u : String) (minG maxG maxF : Nat)
    (rows : List Row) (hmin : minG ≤ maxG) {f : OutFile}
    (hf : f ∈ compactOut u maxG maxF rows) {g : List Row}
    (hg : g ∈ f.groups.dropLast) :
    minG ≤ g.length ∧ g.length ≤ maxG := by
  obtain ⟨k, hk, hfk⟩ := List.mem_flatMap.mp hf
  have hgrp := partitionOut_groups_mem hfk
  have hflat := mem_dropLast_flatten hgrp hg
  rw [packGroups_flatten] at hflat
  have hlen : g.length = maxG := chunks_dropLast hflat
  exact ⟨hlen ▸ hmin, Nat.le_of_eq hlen⟩

/-- Claim C3 witness: the bounds evaluated on a concrete run whose first
row group is full and whose last is undersized. -/
theorem claim_C3_row_group_bounds_witness :
    (1 ≤ 2 ∧ wFile ∈ compactOut "a" 2 4 wRows ∧ wGrp ∈ wFile.groups.dropLast) ∧
    (1 ≤ wGrp.length ∧ wGrp.length ≤ 2) :=
  ⟨⟨by decide, by decide, by decide⟩,
    @claim_C3_row_group_bounds "a" 1 2 4 wRows (by decide) wFile (by decide) wGrp (by decide)⟩

/-- Claim C4: every output file holds at most `max_rows_per_file` rows in
total, and every row group at most `max_rows_per_group` rows — both strict
upper bounds, never overshot, because the writer flushes before appending
rows that would exceed them. -/
theorem claim_C4_file_bounds (u : String) (maxG maxF : Nat) (rows : List Row)
    (hGF : maxG ≤ maxF) {f : OutFile}
    (hf : f ∈ compactOut u maxG maxF rows) :
    (f.groups.map List.length).sum ≤ maxF ∧ ∀ g ∈ f.groups, g.length ≤ maxG := by
  obtain ⟨k, hk, hfk⟩ := List.mem_flatMap.mp hf
  have hgrp := partitionOut_groups_mem hfk
  constructor
  · refine packGroups_sum_le ?_ hgrp
    intro g hg
    exact Nat.le_trans (chunks_length_le hg) hGF
  · intro g hg
    have hflat : g ∈ (packGroups maxF (chunks maxG (partRows rows k))).flatten :=
      List.mem_flatten_of_mem hgrp hg
    rw [packGroups_flatten] at hflat
    exact chunks_length_le hflat

/-- Claim C4 witness: the file and group bounds evaluated on a concrete
run. -/
theorem claim_C4_file_bounds_witness :
    (2 ≤ 4 ∧ wFile ∈ compactOut "a" 2 4 wRows) ∧
    ((wFile.groups.map List.length).sum ≤ 4 ∧ ∀ g ∈ wFile.groups, g.length ≤ 2) :=
  ⟨⟨by decide, by decide⟩,
    @claim_C4_file_bounds "a" 2 4 wRows (by decide) wFile (by decide)⟩

theorem logicalView_append (s1 s2 : List OutFile) :
    logicalView (s1 ++ s2) = logicalView s1 ++ logicalView s2 :=
  List.map_append _ _ _

/-- Three stale files left in partition `(2020, 1)` by an earlier run. -/
def c2Prev : List OutFile :=
  [⟨(2020, 1), "stale-0.parquet", [[⟨2020, 1, 99⟩]]⟩,
   ⟨(2020, 1), "stale-1.parquet", [[⟨2020, 1, 98⟩]]⟩,
   ⟨(2020, 1), "stale-2.parquet", [[⟨2020, 1, 97⟩]]⟩]

/-- Claim C2: delete-matching compaction is logically idempotent — running
the same input twice against the same output root yields the same logical
dataset (keys and row groups; file names differ only by uuid) — and every
partition that receives output afterwards holds exactly the newly written
files, with every stale file gone. -/
theorem claim_C2_idempotent_replacement (u1 u2 : String) (maxG maxF : Nat)
    (rows : List Row) (prev : List OutFile) :
    logicalView (runCompact u2 maxG maxF rows (runCompact u1 maxG maxF rows prev)) =
      logicalView (runCompact u1 maxG maxF rows prev) ∧
    ∀ k, k ∈ (compactOut u1 maxG maxF rows).map OutFile.key →
      partitionFiles k (runCompact u1 maxG maxF rows prev) =
        partitionFiles k (compactOut u1 maxG maxF rows) := by
  constructor
  · unfold runCompact writeDatasetDM
    rw [compactOut_map_key u2 u1 maxG maxF rows]
    rw [List.filter_append]
    have hidem : ((prev.filter fun f =>
        !decide (f.key ∈ (compactOut u1 maxG maxF rows).map OutFile.key)).filter
          fun f =>
            !decide (f.key ∈ (compactOut u1 maxG maxF rows).map OutFile.key)) =
        prev.filter fun f =>
          !decide (f.key ∈ (compactOut u1 maxG maxF rows).map OutFile.key) := by
      rw [List.filter_filter]
      simp only [Bool.and_self]
    have hnil : ((compactOut u1 maxG maxF rows).filter fun f =>
        !decide (f.key ∈ (compactOut u1 maxG maxF rows).map OutFile.key)) = [] := by
      rw [List.filter_eq_nil_iff]
      intro f hf
      simp [compactOut_mem_key hf]
    rw [hidem, hnil, List.append_nil]
    rw [logicalView_append, logicalView_append,
      compactOut_logicalView u2 u1 maxG maxF rows]
  · intro k hk
    unfold runCompact
    exact writeDatasetDM_partitionFiles hk

/-- Claim C2 witness: re-running against a partition holding three stale
files leaves exactly the newly written files there. -/
theorem claim_C2_idempotent_replacement_witness :
    ((2020, 1) ∈ (compactOut "a" 2 4 wRows).map OutFile.key) ∧
    partitionFiles (2020, 1) (runCompact "a" 2 4 wRows c2Prev) =
      partitionFiles (2020, 1) (compactOut "a" 2 4 wRows) :=
  ⟨by decide,
    (claim_C2_idempotent_replacement "a" "b" 2 4 wRows c2Prev).2 (2020, 1)
      (by decide)⟩

/-- A pre-existing output dataset with one valid file in partition
`(2020, 1)`. -/
def c5Prev : List OutFile := [⟨(2020, 1), "old-0.parquet", [[⟨2020, 1, 7⟩]]⟩]

/-- Input rows for the run that refutes claim C5. -/
def c5Rows : List Row := [⟨2020, 1, 42⟩]

/-- Claim C5 counterexample: a `compaction.py` run started through `main`
removes the whole output root with `shutil.rmtree` before writing, so
partition `(2020, 1)`, which held a valid file before the run, holds zero
files in the mid-run state — the state the claim says is unreachable. -/
theorem claim_C5_counterexample_zero_files :
    partitionFiles (2020, 1) (compactionMainTrace c5Rows c5Prev "a" 2 4).initial ≠ [] ∧
    partitionFiles (2020, 1) (compactionMainTrace c5Rows c5Prev "a" 2 4).afterRmtree = [] := by
  constructor
  · decide
  · rfl

/-- Claim C5 (amended): mid-run the CLI does reach the zero-files state —
after `shutil.rmtree` the output root is empty, whatever it held — and
only once the run completes does every partition key of the input again
hold at least one valid file. -/
theorem claim_C5_mid_run_states (rows : List Row) (prev : List OutFile)
    (u : String) (maxG maxF : Nat) (hG : 0 < maxG) (k : PKey)
    (hk : k ∈ routeKeys rows) :
    (compactionMainTrace rows prev u maxG maxF).afterRmtree = [] ∧
    partitionFiles k (compactionMainTrace rows prev u maxG maxF).final ≠ [] := by
  refine ⟨rfl, ?_⟩
  have hfinal : (compactionMainTrace rows prev u maxG maxF).final =
      compactOut u maxG maxF rows := by
    simp [compactionMainTrace, writeDatasetDM]
  rw [hfinal]
  have hne := partitionOut_ne_nil u maxG maxF (Nat.pos_iff_ne_zero.mp hG) hk
  obtain ⟨f, hf⟩ := List.exists_mem_of_ne_nil _ hne
  have hfN : f ∈ compactOut u maxG maxF rows :=
    List.mem_flatMap.mpr ⟨k, hk, hf⟩
  have hfP : f ∈ partitionFiles k (compactOut u maxG maxF rows) :=
    List.mem_filter.mpr ⟨hfN, decide_eq_true (partitionOut_key hf)⟩
  exact List.ne_nil_of_mem hfP

/-- Claim C5 amended-claim witness: the mid-run empty state and the
repopulated final state on a concrete run. -/
theorem claim_C5_mid_run_states_witness :
    (0 < 2 ∧ (2020, 1) ∈ routeKeys c5Rows) ∧
    ((compactionMainTrace c5Rows c5Prev "a" 2 4).afterRmtree = [] ∧
      partitionFiles (2020, 1) (compactionMainTrace c5Rows c5Prev "a" 2 4).final ≠ []) :=
  ⟨⟨by decide, by decide⟩,
    claim_C5_mid_run_states c5Rows c5Prev "a" 2 4 (by decide) (2020, 1) (by decide)⟩

/-- The concrete datetime column of the spec's transform-purity scenario:
2020-01-15, 2020-02-01, 2020-02-20. -/
def c6Dt : List Val :=
  [.ts (some ⟨2020, 1, 15⟩), .ts (some ⟨2020, 2, 1⟩), .ts (some ⟨2020, 2, 20⟩)]

/-- A three-row input table with the scenario's datetime column plus an
unrelated payload column. -/
def c6Tbl : Table := ⟨[("datetime", c6Dt), ("flag", [.raw 1, .raw 2, .raw 3])]⟩

/-- Claim C6: `process_table` is a pure function that keeps every existing
column unchanged and in place, appends `year`, `month` and `day` columns
derived element-wise from the `datetime` column (so output row `i` comes
from input row `i`), and neither adds nor removes rows. -/
theorem claim_C6_transform_pure (t : Table) (dt : List Val)
    (h1 : getCol t "datetime" = some dt) (h2 : dt.all isTs = true) :
    processTable t = .ok ⟨t.cols ++ [("year", dt.map valYear),
      ("month", dt.map valMonth), ("day", dt.map valDay)]⟩ ∧
    (dt.map valYear).length = dt.length ∧
    (dt.map valMonth).length = dt.length ∧
    (dt.map valDay).length = dt.length ∧
    ∀ i : Nat, (dt.map valYear)[i]? = (dt[i]?).map valYear ∧
      (dt.map valMonth)[i]? = (dt[i]?).map valMonth ∧
      (dt.map valDay)[i]? = (dt[i]?).map valDay := by
  refine ⟨processTable_ok h1 h2, by simp, by simp, by simp, ?_⟩
  intro i
  refine ⟨?_, ?_, ?_⟩ <;> simp

/-- Claim C6 witness: the spec's three-row scenario — years
`[2020, 2020, 2020]` and months `[1, 2, 2]` appended in row order with the
original columns untouched. -/
theorem claim_C6_transform_pure_witness :
    (getCol c6Tbl "datetime" = some c6Dt ∧ c6Dt.all isTs = true) ∧
    processTable c6Tbl = .ok ⟨c6Tbl.cols ++
      [("year", [.intv (some 2020), .intv (some 2020), .intv (some 2020)]),
       ("month", [.intv (some 1), .intv (some 2), .intv (some 2)]),
       ("day", [.intv (some 15), .intv (some 1), .intv (some 20)])]⟩ :=
  ⟨⟨rfl, rfl⟩, (claim_C6_transform_pure c6Tbl c6Dt rfl rfl).1⟩

/-- A datetime column holding a null (`NaT`) first entry. -/
def c7Dt : List Val := [.ts none, .ts (some ⟨2020, 5, 6⟩)]

/-- A table whose datetime column contains a null timestamp. -/
def c7NullTbl : Table := ⟨[("datetime", c7Dt)]⟩

/-- Claim C7 counterexample: on a batch with a null timestamp
`process_table` does not fail at all — there is no
`InvalidTimestampError` and no `on_invalid_timestamp` option — it
unconditionally null-propagates, returning null `year`/`month`/`day`
entries for the null row. -/
theorem claim_C7_counterexample_null_ok :
    processTable c7NullTbl = .ok ⟨c7NullTbl.cols ++
      [("year", [.intv none, .intv (some 2020)]),
       ("month", [.intv none, .intv (some 5)]),
       ("day", [.intv none, .intv (some 6)])]⟩ := rfl

/-- Claim C7 (amended): `process_table` fails with a plain `KeyError` when
the `datetime` column is absent; a null timestamp is not an error — the
derived entries are null for that row, unconditionally, there being no
`on_invalid_timestamp` configuration option. -/
theorem claim_C7_error_handling (t : Table)
    (h : getCol t "datetime" = none) :
    processTable t = .error "KeyError: datetime" ∧
    processTable c7NullTbl = .ok ⟨c7NullTbl.cols ++
      [("year", [.intv none, .intv (some 2020)]),
       ("month", [.intv none, .intv (some 5)]),
       ("day", [.intv none, .intv (some 6)])]⟩ :=
  ⟨processTable_missing h, rfl⟩

/-- A table with no `datetime` column. -/
def c7MissTbl : Table := ⟨[("value", [.raw 3])]⟩

/-- Claim C7 witness: the missing-column failure on a concrete table. -/
theorem claim_C7_error_handling_witness :
    getCol c7MissTbl "datetime" = none ∧
    processTable c7MissTbl = .error "KeyError: datetime" :=
  ⟨rfl, (claim_C7_error_handling c7MissTbl rfl).1⟩

/-- Claim C8: both `main` entry points exit non-zero with the message
naming the missing input path, touching nothing under the output root, and
when the input exists the result does not depend on what the output root
previously held — a pre-existing output directory is silently replaced. -/
theorem claim_C8_cli_errors (inPath : String) (prevC : List OutFile)
    (prevI : List IngOutFile) (u : String) (maxG maxF : Nat) :
    (compactionMain inPath none prevC u maxG maxF =
      ⟨false, "Path \"" ++ inPath ++ "\" does not exists", prevC⟩) ∧
    (ingestionMain inPath none prevI =
      ⟨false, "Path \"" ++ inPath ++ "\" does not exists", prevI⟩) ∧
    (∀ (rows : List Row) (prevC2 : List OutFile),
      (compactionMain inPath (some rows) prevC u maxG maxF).outFiles =
        (compactionMain inPath (some rows) prevC2 u maxG maxF).outFiles) ∧
    (∀ (items : List (String × Table)) (prevI2 : List IngOutFile),
      (ingestionMain inPath (some items) prevI).outFiles =
        (ingestionMain inPath (some items) prevI2).outFiles) :=
  ⟨rfl, rfl, fun _ _ => rfl, fun _ _ => rfl⟩

/-- Claim C9: on an input directory that exists but holds no data, both
pipelines finish cleanly and the output root holds no files. -/
theorem claim_C9_empty_input (inPath : String) (prevC : List OutFile)
    (prevI : List IngOutFile) (u : String) (maxG maxF : Nat) :
    compactionMain inPath (some []) prevC u maxG maxF = ⟨true, "", []⟩ ∧
    ingestionMain inPath (some []) prevI = ⟨true, "", []⟩ :=
  ⟨rfl, rfl⟩

theorem mkBasename_inj_of_ne {u1 u2 : String} (hlen : u1.length = u2.length)
    (hne : u1 ≠ u2) (i j : Nat) : mkBasename u1 i ≠ mkBasename u2 j := by
  intro heq
  unfold mkBasename at heq
  have hd := congrArg String.data heq
  simp only [String.data_append, List.append_assoc] at hd
  have hl : u1.data.length = u2.data.length := hlen
  exact hne (String.ext (List.append_inj hd hl).1)

/-- Claim C10: within one writer invocation every output file name is the
invocation's uuid followed by a sequence index (for `compact_dataset` and
`process_single_file` alike), and two invocations whose uuids differ can
never produce colliding file names. -/
theorem claim_C10_uuid_names (u : String) (maxG maxF : Nat) (rows : List Row) :
    (∀ f ∈ compactOut u maxG maxF rows, ∃ i, f.name = mkBasename u i) ∧
    (∀ (t : Table) (fs : List IngOutFile), ingestSingle u t = Except.ok fs →
      ∀ g ∈ fs, ∃ i, g.name = mkBasename u i) ∧
    (∀ (u1 u2 : String) (i j : Nat), u1.length = u2.length → u1 ≠ u2 →
      mkBasename u1 i ≠ mkBasename u2 j) := by
  refine ⟨?_, ?_, ?_⟩
  · intro f hf
    obtain ⟨k, hk, hfk⟩ := List.mem_flatMap.mp hf
    obtain ⟨p, hp, rfl⟩ := List.mem_map.mp hfk
    exact ⟨p.1, rfl⟩
  · intro t fs hok g hg
    unfold ingestSingle at hok
    cases hpt : processTable t with
    | error e =>
      rw [hpt] at hok
      simp [Except.map] at hok
    | ok t1 =>
      rw [hpt] at hok
      simp only [Except.map, Except.ok.injEq] at hok
      subst hok
      obtain ⟨k, hk, rfl⟩ := List.mem_map.mp hg
      exact ⟨0, rfl⟩
  · intro u1 u2 i j hlen hne
    exact mkBasename_inj_of_ne hlen hne i j

/-- Claim C10 witness: names from distinct uuids of equal length never
collide, shown on concrete uuids and indices. -/
theorem claim_C10_uuid_names_witness :
    ("aaaa".length = "bbbb".length ∧ ("aaaa" : String) ≠ "bbbb") ∧
    mkBasename "aaaa" 0 ≠ mkBasename "bbbb" 1 :=
  ⟨⟨rfl, by decide⟩,
    (claim_C10_uuid_names "x" 2 4 []).2.2 "aaaa" "bbbb" 0 1 rfl (by decide)⟩

end ParquetPipeline
